import Mathlib

/-!
Verification of `jki_to_jik.c`, a converter that reorders a 3-D array of
8-byte elements stored on disk from JKI layout to JIK layout.

The development shallowly embeds the program:

* `offset_ijk`, `offset_jki`, `offset_jik` transcribe the three offset
  functions (`unsigned long` arithmetic; exact for every run in which the
  `8 * n0 * n1 * n2`-byte data region is addressable).
* Files are modelled as total functions `Nat → α` from element index to
  element value, and each conversion algorithm as the sequence of element
  writes its loops perform (`convert`).
* The initializer phase is modelled by the list of element values it writes
  sequentially (`initValues`), and by its write-error control flow (`initE`).
* The error control flow of the conversion loops is modelled over fallible
  seek/read/write drivers (`convE`).
* The two `file_handle_open_*` backends and the output-file open phase of
  `main` are modelled over a one-file filesystem state (`MFile`).
-/

namespace JkiToJik

/-- Dimensions `(n0, n1, n2)` taken from the CLI options `n1`, `n2`, `n3`;
`main` rejects a zero in any axis. -/
structure Dims where
  n0 : Nat
  n1 : Nat
  n2 : Nat

/-- The expected element count `n0 * n1 * n2` of the data cube. -/
def Dims.N (n : Dims) : Nat := n.n0 * n.n1 * n.n2

/-- Concrete dimensions (2,2,2) used in the spec's concrete scenario. -/
def d222 : Dims := ⟨2, 2, 2⟩

/-- Concrete dimensions (2,3,4) used as a witness input. -/
def d234 : Dims := ⟨2, 3, 4⟩

/-- Transcribed from `offset_ijk` (src lines 355-364):
`return i * n[2] * n[1] + n[2] * j + k;`. -/
def offset_ijk (n : Dims) (i j k : Nat) : Nat :=
  i * n.n2 * n.n1 + n.n2 * j + k

/-- Transcribed from `offset_jki` (src lines 368-377):
`return j * n[0] * n[2] + n[0] * k + i;`. -/
def offset_jki (n : Dims) (i j k : Nat) : Nat :=
  j * n.n0 * n.n2 + n.n0 * k + i

/-- Transcribed from `offset_jik` (src lines 381-390):
`return j * n[0] * n[2] + n[2] * i + k;`. -/
def offset_jik (n : Dims) (i j k : Nat) : Nat :=
  j * n.n0 * n.n2 + n.n2 * i + k

/-- The bijection contract of one offset function over the index cube:
it maps the cube into `[0, n0*n1*n2)` with no collisions and no gaps. -/
def IsCubeBijection (n : Dims) (f : Nat → Nat → Nat → Nat) : Prop :=
  (∀ i j k, i < n.n0 → j < n.n1 → k < n.n2 → f i j k < n.N) ∧
  (∀ i j k i' j' k', i < n.n0 → j < n.n1 → k < n.n2 →
      i' < n.n0 → j' < n.n1 → k' < n.n2 →
      f i j k = f i' j' k' → i = i' ∧ j = j' ∧ k = k') ∧
  (∀ p, p < n.N → ∃ i j k, i < n.n0 ∧ j < n.n1 ∧ k < n.n2 ∧ f i j k = p)

/-- Pointwise update of a file or buffer modelled as `Nat → α`: one element
store `buf[p] = v`. -/
def upd {α : Type} (f : Nat → α) (p : Nat) (v : α) : Nat → α :=
  fun q => if q = p then v else f q

/-- A sequence of element stores `(position, value)` applied left to right
to a file or buffer modelled as `Nat → α`. -/
def writes {α : Type} (ws : List (Nat × α)) (out : Nat → α) : Nat → α :=
  ws.foldl (fun g pv => upd g pv.1 pv.2) out

/-- The six conversion strategies of `algorithm_t` (src lines 217-226). -/
inductive Algorithm where
  | ijk_map
  | jki_map
  | jik_map
  | vector_input
  | vector_output
  | matrix

/-- Index triples `(i,j,k)` in the nesting order i, j, k. -/
def order_ijk (n : Dims) : List (Nat × Nat × Nat) :=
  (List.range n.n0).flatMap fun i => (List.range n.n1).flatMap fun j =>
    (List.range n.n2).map fun k => (i, j, k)

/-- Index triples `(i,j,k)` in the nesting order j, k, i. -/
def order_jki (n : Dims) : List (Nat × Nat × Nat) :=
  (List.range n.n1).flatMap fun j => (List.range n.n2).flatMap fun k =>
    (List.range n.n0).map fun i => (i, j, k)

/-- Index triples `(i,j,k)` in the nesting order j, i, k. -/
def order_jik (n : Dims) : List (Nat × Nat × Nat) :=
  (List.range n.n1).flatMap fun j => (List.range n.n0).flatMap fun i =>
    (List.range n.n2).map fun k => (i, j, k)

/-- Pairs `(j,k)` in nesting order j, k: the outer loops of vector_input. -/
def pairs_jk (n : Dims) : List (Nat × Nat) :=
  (List.range n.n1).flatMap fun j => (List.range n.n2).map fun k => (j, k)

/-- Pairs `(j,i)` in nesting order j, i: the outer loops of vector_output. -/
def pairs_ji (n : Dims) : List (Nat × Nat) :=
  (List.range n.n1).flatMap fun j => (List.range n.n0).map fun i => (j, i)

/-- One loop body of the three map conversion variants (src lines 799-911):
read the element at `offset_jki(i,j,k)`, write it at `offset_jik(i,j,k)`;
applied along the variant's traversal order. -/
def mapWrites {α : Type} (n : Dims) (inp : Nat → α)
    (O : List (Nat × Nat × Nat)) : List (Nat × α) :=
  O.map fun t => (offset_jik n t.1 t.2.1 t.2.2, inp (offset_jki n t.1 t.2.1 t.2.2))

/-- vector_input conversion writes (src lines 913-958): for each `(j,k)` one
physical read of `n0` elements starting at `offset_jki(0,j,k)` fills the
vector `v`, whose entry `i` is then written at `offset_jik(i,j,k)`. -/
def viWrites {α : Type} (n : Dims) (inp : Nat → α) : List (Nat × α) :=
  (pairs_jk n).flatMap fun jk =>
    (List.range n.n0).map fun i =>
      (offset_jik n i jk.1 jk.2, inp (offset_jki n 0 jk.1 jk.2 + i))

/-- vector_output scratch fill (src lines 975-990): `v[k]` receives the
element at `offset_jki(i,j,k)` for `k` in `0..n2`; here `ji = (j, i)`. -/
def voFill {α : Type} (n : Dims) (inp : Nat → α) (ji : Nat × Nat)
    (scr : Nat → α) : Nat → α :=
  writes ((List.range n.n2).map fun k => (k, inp (offset_jki n ji.2 ji.1 k))) scr

/-- vector_output block write (src lines 992-1002): `n2` elements of the
vector `v` written contiguously from `offset_jik(i,j,0)`. -/
def voOut {α : Type} (n : Dims) (ji : Nat × Nat) (v : Nat → α) :
    List (Nat × α) :=
  (List.range n.n2).map fun m => (offset_jik n ji.2 ji.1 0 + m, v m)

/-- vector_output conversion (src lines 960-1007): loop over `(j,i)` pairs,
filling the reused scratch vector then writing it out as one block. -/
def convert_vo {α : Type} (n : Dims) (inp out scr : Nat → α) : Nat → α :=
  ((pairs_ji n).foldl
    (fun st ji =>
      (writes (voOut n ji (voFill n inp ji st.2)) st.1, voFill n inp ji st.2))
    (out, scr)).1

/-- matrix transpose fill (src lines 1038-1042): `v2[i*n2+k] = v1[k*n0+i]`,
where `v1[m]` is the element at `offset_jki(0,j,0) + m` delivered by the
block read (src lines 1023-1029). -/
def matFill {α : Type} (n : Dims) (inp : Nat → α) (j : Nat)
    (scr : Nat → α) : Nat → α :=
  writes ((List.range n.n0).flatMap fun i => (List.range n.n2).map fun k =>
    (i * n.n2 + k, inp (offset_jki n 0 j 0 + (k * n.n0 + i)))) scr

/-- matrix block write (src lines 1043-1053): `n0*n2` elements of `v2`
written contiguously from `offset_jik(0,j,0)`. -/
def matOut {α : Type} (n : Dims) (j : Nat) (v : Nat → α) : List (Nat × α) :=
  (List.range (n.n0 * n.n2)).map fun m => (offset_jik n 0 j 0 + m, v m)

/-- matrix conversion (src lines 1009-1057): loop over `j`, reading one
`n0 x n2` block, transposing it into the reused second scratch matrix, and
writing that out as one block. -/
def convert_mat {α : Type} (n : Dims) (inp out scr : Nat → α) : Nat → α :=
  ((List.range n.n1).foldl
    (fun st j =>
      (writes (matOut n j (matFill n inp j st.2)) st.1, matFill n inp j st.2))
    (out, scr)).1

/-- The conversion phase of `main` (src lines 793-1059): the final content of
the output file, given input file content `inp`, previous output content
`out` and initial scratch-buffer content `scr` (the malloc result for the
buffered variants; unused by the three map variants). Reads are modelled as
succeeding with the input's content, as in a run whose input file covers the
whole cube; the error control flow is modelled separately by `convE`. -/
def convert {α : Type} (alg : Algorithm) (n : Dims) (inp out scr : Nat → α) :
    Nat → α :=
  match alg with
  | .ijk_map => writes (mapWrites n inp (order_ijk n)) out
  | .jki_map => writes (mapWrites n inp (order_jki n)) out
  | .jik_map => writes (mapWrites n inp (order_jik n)) out
  | .vector_input => writes (viWrites n inp) out
  | .vector_output => convert_vo n inp out scr
  | .matrix => convert_mat n inp out scr

/-- Derived write list of one vector_output block, proved equal to the block
the loop performs (`voOut` applied to the filled scratch). -/
def voW {α : Type} (n : Dims) (inp : Nat → α) (ji : Nat × Nat) :
    List (Nat × α) :=
  (List.range n.n2).map fun m =>
    (offset_jik n ji.2 ji.1 0 + m, inp (offset_jki n ji.2 ji.1 m))

/-- Derived write list of one matrix block, proved equal to the block the
loop performs (`matOut` applied to the transposed scratch). -/
def matW {α : Type} (n : Dims) (inp : Nat → α) (j : Nat) : List (Nat × α) :=
  (List.range (n.n0 * n.n2)).map fun m =>
    (offset_jik n 0 j 0 + m, inp (offset_jki n 0 j 0 + (m % n.n2 * n.n0 + m / n.n2)))

/-- The identity file: element p holds value p (used as a concrete input). -/
def natId : Nat → Nat := fun p => p

/-- The all-zero file or scratch buffer. -/
def natZero : Nat → Nat := fun _ => 0

/-- vector_input initializer fill (src line 650):
`for i: v[i] = offset_jki(i,j,k)`. -/
def viInitFill (n : Dims) (jk : Nat × Nat) (scr : Nat → Nat) : Nat → Nat :=
  writes ((List.range n.n0).map fun i => (i, offset_jki n i jk.1 jk.2)) scr

/-- vector_output initializer fill (src line 672):
`for k: v[k] = offset_jki(i,j,k)`; here `ji = (j, i)`. -/
def voInitFill (n : Dims) (ji : Nat × Nat) (scr : Nat → Nat) : Nat → Nat :=
  writes ((List.range n.n2).map fun k => (k, offset_jki n ji.2 ji.1 k)) scr

/-- matrix initializer fill (src lines 693-697):
`for k: for i: v[n0*k+i] = offset_jki(i,j,k)`. -/
def matInitFill (n : Dims) (j : Nat) (scr : Nat → Nat) : Nat → Nat :=
  writes ((List.range n.n2).flatMap fun k => (List.range n.n0).map fun i =>
    (n.n0 * k + i, offset_jki n i j k)) scr

/-- The initializer phase of `main` (src lines 561-711): the sequence of
element values the selected variant writes, in write order. The `t`-th list
entry lands at element position `t` of the input file, because initializer
writes are sequential with no seeking. Values are modelled as the `Nat`
offsets that the C code converts to `double`. `scr` is the initial content
of the malloc scratch buffer reused across iterations by the three block
variants. Note that the jik_map variant loops in i,j,k order and stores
`offset_jik` values (src lines 618-634); the block variants do not check
their write results, which `initE` models. -/
def initValues (alg : Algorithm) (n : Dims) (scr : Nat → Nat) : List Nat :=
  match alg with
  | .ijk_map => (order_ijk n).map fun t => offset_ijk n t.1 t.2.1 t.2.2
  | .jki_map => (order_jki n).map fun t => offset_jki n t.1 t.2.1 t.2.2
  | .jik_map => (order_ijk n).map fun t => offset_jik n t.1 t.2.1 t.2.2
  | .vector_input =>
    ((pairs_jk n).foldl
      (fun st jk => (st.1 ++ (List.range n.n0).map (viInitFill n jk st.2),
        viInitFill n jk st.2)) ([], scr)).1
  | .vector_output =>
    ((pairs_ji n).foldl
      (fun st ji => (st.1 ++ (List.range n.n2).map (voInitFill n ji st.2),
        voInitFill n ji st.2)) ([], scr)).1
  | .matrix =>
    ((List.range n.n1).foldl
      (fun st j => (st.1 ++ (List.range (n.n0 * n.n2)).map (matInitFill n j st.2),
        matInitFill n j st.2)) ([], scr)).1

/-- The element position at which the initializer variant's traversal step
for coordinate `(i,j,k)` lands: the number of elements written before that
step, determined by the variant's loop nesting. -/
def seedPos (alg : Algorithm) (n : Dims) (i j k : Nat) : Nat :=
  match alg with
  | .ijk_map => offset_ijk n i j k
  | .jki_map => offset_jki n i j k
  | .jik_map => offset_ijk n i j k
  | .vector_input => offset_jki n i j k
  | .vector_output => offset_jik n i j k
  | .matrix => offset_jki n i j k

/-- The offset function whose value the initializer variant stores at
coordinate `(i,j,k)`: `offset_ijk` for ijk_map, `offset_jik` for jik_map,
`offset_jki` for the other four variants. -/
def seedOffset (alg : Algorithm) (n : Dims) (i j k : Nat) : Nat :=
  match alg with
  | .ijk_map => offset_ijk n i j k
  | .jik_map => offset_jik n i j k
  | _ => offset_jki n i j k

/-- The input file content produced by initializing with the default
algorithm jki_map: on the data region, element p holds value p. -/
def initFile (n : Dims) : Nat → Nat :=
  fun p => (initValues Algorithm.jki_map n natZero).getD p 0

/-- The errno value EINVAL (invalid argument), the exit code for
configuration, sizing and unexpected end-of-file failures. -/
def EINVAL : Nat := 22

/-- The errno value EEXIST (file exists). -/
def EEXIST : Nat := 17

/-- The errno value ENOENT (no such file or directory). -/
def ENOENT : Nat := 2

/-- A fallible I/O driver for one file handle during the conversion phase:
the results that capability calls deliver, indexed by the byte offset `fp`
of the seek that positions them. `sres` is the seek return (negative means
failure, with errno `serr fp`); `rres` the read byte count (0 is
end-of-file, negative is failure with errno `rerr fp`); `wres` and `werr`
likewise for writes. -/
structure Drv where
  sres : Nat → Int
  serr : Nat → Nat
  rres : Nat → Int
  rerr : Nat → Nat
  wres : Nat → Int
  werr : Nat → Nat

/-- Conversion-phase seek check (src e.g. lines 845-848, 860-863):
`if (io_driver->seek(fh, fp) < 0) exit(errno)`. -/
def seekE (d : Drv) (fp : Nat) : Except Nat Unit :=
  if d.sres fp < 0 then Except.error (d.serr fp) else Except.ok ()

/-- Conversion-phase read check (src e.g. lines 849-857):
`if (n_bytes <= 0) { if (n_bytes == 0) exit(EINVAL); exit(errno); }` —
zero bytes is the distinct unexpected end-of-file condition. -/
def readE (d : Drv) (fp : Nat) : Except Nat Unit :=
  if d.rres fp ≤ 0 then
    (if d.rres fp = 0 then Except.error EINVAL else Except.error (d.rerr fp))
  else Except.ok ()

/-- Conversion-phase write check (src e.g. lines 864-868):
`if (n_bytes <= 0) exit(errno)`. -/
def writeE (d : Drv) (fp : Nat) : Except Nat Unit :=
  if d.wres fp ≤ 0 then Except.error (d.werr fp) else Except.ok ()

/-- One iteration of a map conversion variant (src lines 803-830, repeated
textually at 841-868 and 879-906): seek+read the input at `8*offset_jki`,
then seek+write the output at `8*offset_jik`; any failure exits. -/
def mapStep (di dd : Drv) (n : Dims) (t : Nat × Nat × Nat) : Except Nat Unit :=
  match seekE di (8 * offset_jki n t.1 t.2.1 t.2.2) with
  | .error e => .error e
  | .ok _ =>
    match readE di (8 * offset_jki n t.1 t.2.1 t.2.2) with
    | .error e => .error e
    | .ok _ =>
      match seekE dd (8 * offset_jik n t.1 t.2.1 t.2.2) with
      | .error e => .error e
      | .ok _ => writeE dd (8 * offset_jik n t.1 t.2.1 t.2.2)

/-- The inner i-loop of one vector_input iteration (src lines 941-953):
seek+write one element of the read vector per `i`. -/
def viWriteLoop (dd : Drv) (n : Dims) (jk : Nat × Nat) : Except Nat Unit :=
  (List.range n.n0).foldlM (fun (_ : Unit) i =>
    match seekE dd (8 * offset_jik n i jk.1 jk.2) with
    | .error e => .error e
    | .ok _ => writeE dd (8 * offset_jik n i jk.1 jk.2)) ()

/-- One `(j,k)` iteration of the vector_input conversion (src lines
923-954): one block seek+read at `8*offset_jki(0,j,k)`, then the per-`i`
write loop. -/
def viStep (di dd : Drv) (n : Dims) (jk : Nat × Nat) : Except Nat Unit :=
  match seekE di (8 * offset_jki n 0 jk.1 jk.2) with
  | .error e => .error e
  | .ok _ =>
    match readE di (8 * offset_jki n 0 jk.1 jk.2) with
    | .error e => .error e
    | .ok _ => viWriteLoop dd n jk

/-- The inner k-loop of one vector_output iteration (src lines 975-990):
seek+read one element into the vector per `k`. -/
def voReadLoop (di : Drv) (n : Dims) (ji : Nat × Nat) : Except Nat Unit :=
  (List.range n.n2).foldlM (fun (_ : Unit) k =>
    match seekE di (8 * offset_jki n ji.2 ji.1 k) with
    | .error e => .error e
    | .ok _ => readE di (8 * offset_jki n ji.2 ji.1 k)) ()

/-- One `(j,i)` iteration of the vector_output conversion (src lines
970-1003): the per-`k` read loop, then one block seek+write at
`8*offset_jik(i,j,0)`. -/
def voStep (di dd : Drv) (n : Dims) (ji : Nat × Nat) : Except Nat Unit :=
  match voReadLoop di n ji with
  | .error e => .error e
  | .ok _ =>
    match seekE dd (8 * offset_jik n ji.2 ji.1 0) with
    | .error e => .error e
    | .ok _ => writeE dd (8 * offset_jik n ji.2 ji.1 0)

/-- One `j` iteration of the matrix conversion (src lines 1021-1054):
block seek+read at `8*offset_jki(0,j,0)`, in-memory transpose (no I/O),
block seek+write at `8*offset_jik(0,j,0)`. -/
def matStep (di dd : Drv) (n : Dims) (j : Nat) : Except Nat Unit :=
  match seekE di (8 * offset_jki n 0 j 0) with
  | .error e => .error e
  | .ok _ =>
    match readE di (8 * offset_jki n 0 j 0) with
    | .error e => .error e
    | .ok _ =>
      match seekE dd (8 * offset_jik n 0 j 0) with
      | .error e => .error e
      | .ok _ => writeE dd (8 * offset_jik n 0 j 0)

/-- Error control flow of the conversion phase (src lines 793-1059):
`Except.error e` models `exit(e)`; `di` and `dd` supply the capability
results for the input and output handles. Content movement under
succeeding I/O is modelled by `convert`. -/
def convE (alg : Algorithm) (n : Dims) (di dd : Drv) : Except Nat Unit :=
  match alg with
  | .ijk_map => (order_ijk n).foldlM (fun _ t => mapStep di dd n t) ()
  | .jki_map => (order_jki n).foldlM (fun _ t => mapStep di dd n t) ()
  | .jik_map => (order_jik n).foldlM (fun _ t => mapStep di dd n t) ()
  | .vector_input => (pairs_jk n).foldlM (fun _ jk => viStep di dd n jk) ()
  | .vector_output => (pairs_ji n).foldlM (fun _ ji => voStep di dd n ji) ()
  | .matrix => (List.range n.n1).foldlM (fun _ j => matStep di dd n j) ()

/-- A driver whose every call succeeds. -/
def okDrv : Drv :=
  ⟨fun _ => 0, fun _ => 0, fun _ => 8, fun _ => 0, fun _ => 8, fun _ => 0⟩

/-- A driver whose seeks succeed and whose every read returns 0 bytes:
end-of-file on every read. -/
def eofDrv : Drv := { okDrv with rres := fun _ => 0 }

/-- A driver whose seeks succeed and whose every read fails with errno e. -/
def errDrv (e : Nat) : Drv :=
  { okDrv with rres := fun _ => -1, rerr := fun _ => e }

/-- The checked write of the three map initializer variants (src e.g.
lines 589-593): `if (n_bytes <= 0) exit(errno)`. Here `w cnt` is the
result of the `cnt`-th write call of the phase and `er cnt` the errno it
sets on failure. -/
def initWriteChecked (w : Nat → Int) (er : Nat → Nat) (cnt : Nat) :
    Except Nat Nat :=
  if w cnt ≤ 0 then Except.error (er cnt) else Except.ok (cnt + 1)

/-- Error control flow of the initializer phase (src lines 576-704),
returning the number of write calls made: the three map variants check
every write result and exit with errno on failure, while the vector_input,
vector_output and matrix variants assign `n_bytes = io_driver->write(...)`
(src lines 651, 673, 698) and never test it, so their write calls cannot
produce an error exit. The jik_map variant loops in i,j,k order. -/
def initE (alg : Algorithm) (n : Dims) (w : Nat → Int) (er : Nat → Nat) :
    Except Nat Nat :=
  match alg with
  | .ijk_map => (order_ijk n).foldlM (fun cnt _ => initWriteChecked w er cnt) 0
  | .jki_map => (order_jki n).foldlM (fun cnt _ => initWriteChecked w er cnt) 0
  | .jik_map => (order_ijk n).foldlM (fun cnt _ => initWriteChecked w er cnt) 0
  | .vector_input => (pairs_jk n).foldlM (fun cnt _ => Except.ok (cnt + 1)) 0
  | .vector_output => (pairs_ji n).foldlM (fun cnt _ => Except.ok (cnt + 1)) 0
  | .matrix => (List.range n.n1).foldlM (fun cnt _ => Except.ok (cnt + 1)) 0

/-- Minimal state of one file path: whether it exists, and its size in
bytes as `stat` would report it. -/
structure MFile where
  present : Bool
  size : Nat

/-- Model of POSIX `open(2)` for the flag combinations the program uses:
without `O_EXCL`, `O_CREAT` on an existing file simply opens it; `O_TRUNC`
truncates it; a missing file without `O_CREAT` fails with ENOENT. Returns
the state of the file after the call. -/
def posixOpen (f : MFile) (creat excl trunc : Bool) : Except Nat MFile :=
  if f.present then
    if creat && excl then Except.error EEXIST
    else Except.ok { present := true, size := if trunc then 0 else f.size }
  else
    if creat then Except.ok { present := true, size := 0 }
    else Except.error ENOENT

/-- Transcribed from `file_handle_open_fd` (src lines 40-57): `oflag` adds
`O_CREAT` when `should_create` and `O_TRUNC` when `should_trunc`; `O_EXCL`
is never set. -/
def file_handle_open_fd (f : MFile)
    (read_only should_create should_trunc : Bool) : Except Nat MFile :=
  posixOpen f should_create false should_trunc

/-- Transcribed from `file_handle_open_stream` (src lines 119-146): with
`should_create`, an existing path fails with `errno = EEXIST` and a
missing one is created via `fopen(path, "wb+")`; otherwise `read_only`
opens with `"rb"`, and read-write opens with `"wb+"` — which always
truncates an existing file (the extra `ftruncate` issued when
`should_trunc` holds is redundant). -/
def file_handle_open_stream (f : MFile)
    (read_only should_create should_trunc : Bool) : Except Nat MFile :=
  if should_create then
    if f.present then Except.error EEXIST
    else Except.ok { present := true, size := 0 }
  else if read_only then
    (if f.present then Except.ok f else Except.error ENOENT)
  else Except.ok { present := true, size := 0 }

/-- The two I/O backends of `io_driver_t` (src lines 254-259). -/
inductive Driver where
  | fd
  | stream

/-- The open callback of the selected backend. -/
def openD (d : Driver) (f : MFile)
    (read_only should_create should_trunc : Bool) : Except Nat MFile :=
  match d with
  | .fd => file_handle_open_fd f read_only should_create should_trunc
  | .stream => file_handle_open_stream f read_only should_create should_trunc

/-- The output-file open phase of `main` (src lines 752-787), for prior
output-path state `f`, expected byte length `l = 8*n0*n1*n2` and the
exact-dims flag: try to create with `open(out, false, true, false)`; on a
failure other than EEXIST exit with errno; on EEXIST reopen without
creating (`open(out, false, false, false)`), stat the handle, and exit
EINVAL when the size is below `l`, or above `l` in exact-dims mode.
Returns the opened file state on success. -/
def output_open_phase (d : Driver) (f : MFile) (l : Nat) (exact : Bool) :
    Except Nat MFile :=
  match openD d f false true false with
  | .ok f' => .ok f'
  | .error e =>
    if e ≠ EEXIST then .error e
    else
      match openD d f false false false with
      | .error e' => .error e'
      | .ok f' =>
        if f'.size < l then .error EINVAL
        else if f'.size > l ∧ exact = true then .error EINVAL
        else .ok f'

/-- The output-file operations `(byte offset of the seek, byte length of
the write issued there)` of the conversion phase, per algorithm: each
variant computes `fp = sizeof(double) * offset_jik(...)`, seeks the output
there and writes one element, one `n2`-vector, or one `n0 x n2` block. -/
def outputOps (alg : Algorithm) (n : Dims) : List (Nat × Nat) :=
  match alg with
  | .ijk_map => (order_ijk n).map fun t => (8 * offset_jik n t.1 t.2.1 t.2.2, 8)
  | .jki_map => (order_jki n).map fun t => (8 * offset_jik n t.1 t.2.1 t.2.2, 8)
  | .jik_map => (order_jik n).map fun t => (8 * offset_jik n t.1 t.2.1 t.2.2, 8)
  | .vector_input => (pairs_jk n).flatMap fun jk =>
      (List.range n.n0).map fun i => (8 * offset_jik n i jk.1 jk.2, 8)
  | .vector_output => (pairs_ji n).map fun ji =>
      (8 * offset_jik n ji.2 ji.1 0, 8 * n.n2)
  | .matrix => (List.range n.n1).map fun j =>
      (8 * offset_jik n 0 j 0, 8 * (n.n0 * n.n2))

/-! ## Theorems -/

/-- One base-`R` digit step stays below `A * R`. -/
lemma digit_lt {A R a r : Nat} (ha : a < A) (hr : r < R) :
    a * R + r < A * R := by
  calc a * R + r < a * R + R := by omega
    _ = (a + 1) * R := by ring
    _ ≤ A * R := Nat.mul_le_mul_right R ha

/-- Mod and div recover the two digits of `a * R + r` when `r < R`. -/
lemma digit_split {R a r : Nat} (hr : r < R) :
    (a * R + r) % R = r ∧ (a * R + r) / R = a := by
  have hR : 0 < R := by omega
  constructor
  · rw [mul_comm, Nat.mul_add_mod]
    exact Nat.mod_eq_of_lt hr
  · rw [mul_comm, Nat.mul_add_div hR, Nat.div_eq_of_lt hr]
    omega

/-- Digit decomposition is unique when the low digit is in range. -/
lemma digit_inj {R a r a' r' : Nat} (hr : r < R) (hr' : r' < R)
    (h : a * R + r = a' * R + r') : a = a' ∧ r = r' := by
  have h1 := digit_split (a := a) hr
  have h2 := digit_split (a := a') hr'
  constructor
  · rw [← h1.2, h, h2.2]
  · rw [← h1.1, h, h2.1]

/-- Every `p < A * R` decomposes into two digits. -/
lemma digit_surj {A R p : Nat} (hp : p < A * R) :
    p / R < A ∧ p % R < R ∧ (p / R) * R + p % R = p := by
  have hR : 0 < R := by
    rcases Nat.eq_zero_or_pos R with h | h
    · subst h; simp at hp
    · exact h
  refine ⟨?_, Nat.mod_lt _ hR, ?_⟩
  · exact Nat.div_lt_of_lt_mul (by rw [mul_comm]; exact hp)
  · rw [mul_comm]; exact Nat.div_add_mod p R

/-- Normal form of `offset_ijk` as a two-level digit decomposition. -/
lemma offset_ijk_eq (n : Dims) (i j k : Nat) :
    offset_ijk n i j k = i * (n.n1 * n.n2) + (j * n.n2 + k) := by
  unfold offset_ijk; ring

/-- Normal form of `offset_jki` as a two-level digit decomposition. -/
lemma offset_jki_eq (n : Dims) (i j k : Nat) :
    offset_jki n i j k = j * (n.n2 * n.n0) + (k * n.n0 + i) := by
  unfold offset_jki; ring

/-- Normal form of `offset_jik` as a two-level digit decomposition. -/
lemma offset_jik_eq (n : Dims) (i j k : Nat) :
    offset_jik n i j k = j * (n.n0 * n.n2) + (i * n.n2 + k) := by
  unfold offset_jik; ring

lemma offset_ijk_lt {n : Dims} {i j k : Nat}
    (hi : i < n.n0) (hj : j < n.n1) (hk : k < n.n2) :
    offset_ijk n i j k < n.N := by
  rw [offset_ijk_eq]
  have h := digit_lt hi (digit_lt hj hk)
  calc i * (n.n1 * n.n2) + (j * n.n2 + k) < n.n0 * (n.n1 * n.n2) := h
    _ = n.N := by unfold Dims.N; ring

lemma offset_jki_lt {n : Dims} {i j k : Nat}
    (hi : i < n.n0) (hj : j < n.n1) (hk : k < n.n2) :
    offset_jki n i j k < n.N := by
  rw [offset_jki_eq]
  have h := digit_lt hj (digit_lt hk hi)
  calc j * (n.n2 * n.n0) + (k * n.n0 + i) < n.n1 * (n.n2 * n.n0) := h
    _ = n.N := by unfold Dims.N; ring

lemma offset_jik_lt {n : Dims} {i j k : Nat}
    (hi : i < n.n0) (hj : j < n.n1) (hk : k < n.n2) :
    offset_jik n i j k < n.N := by
  rw [offset_jik_eq]
  have h := digit_lt hj (digit_lt hi hk)
  calc j * (n.n0 * n.n2) + (i * n.n2 + k) < n.n1 * (n.n0 * n.n2) := h
    _ = n.N := by unfold Dims.N; ring

lemma offset_ijk_inj {n : Dims} {i j k i' j' k' : Nat}
    (hj : j < n.n1) (hk : k < n.n2) (hj' : j' < n.n1) (hk' : k' < n.n2)
    (h : offset_ijk n i j k = offset_ijk n i' j' k') :
    i = i' ∧ j = j' ∧ k = k' := by
  rw [offset_ijk_eq, offset_ijk_eq] at h
  have h1 := digit_inj (digit_lt hj hk) (digit_lt hj' hk') h
  have h2 := digit_inj hk hk' h1.2
  exact ⟨h1.1, h2.1, h2.2⟩

lemma offset_jki_inj {n : Dims} {i j k i' j' k' : Nat}
    (hi : i < n.n0) (hk : k < n.n2) (hi' : i' < n.n0) (hk' : k' < n.n2)
    (h : offset_jki n i j k = offset_jki n i' j' k') :
    i = i' ∧ j = j' ∧ k = k' := by
  rw [offset_jki_eq, offset_jki_eq] at h
  have h1 := digit_inj (digit_lt hk hi) (digit_lt hk' hi') h
  have h2 := digit_inj hi hi' h1.2
  exact ⟨h2.2, h1.1, h2.1⟩

lemma offset_jik_inj {n : Dims} {i j k i' j' k' : Nat}
    (hi : i < n.n0) (hk : k < n.n2) (hi' : i' < n.n0) (hk' : k' < n.n2)
    (h : offset_jik n i j k = offset_jik n i' j' k') :
    i = i' ∧ j = j' ∧ k = k' := by
  rw [offset_jik_eq, offset_jik_eq] at h
  have h1 := digit_inj (digit_lt hi hk) (digit_lt hi' hk') h
  have h2 := digit_inj hk hk' h1.2
  exact ⟨h2.1, h1.1, h2.2⟩

lemma offset_ijk_surj {n : Dims} {p : Nat} (hp : p < n.N) :
    ∃ i j k, i < n.n0 ∧ j < n.n1 ∧ k < n.n2 ∧ offset_ijk n i j k = p := by
  have hp' : p < n.n0 * (n.n1 * n.n2) := by
    have : n.N = n.n0 * (n.n1 * n.n2) := by unfold Dims.N; ring
    omega
  obtain ⟨hi, hr, hrec⟩ := digit_surj hp'
  obtain ⟨hj, hk, hrec2⟩ := digit_surj hr
  refine ⟨p / (n.n1 * n.n2), p % (n.n1 * n.n2) / n.n2, p % (n.n1 * n.n2) % n.n2,
    hi, hj, hk, ?_⟩
  rw [offset_ijk_eq, hrec2, hrec]

lemma offset_jki_surj {n : Dims} {p : Nat} (hp : p < n.N) :
    ∃ i j k, i < n.n0 ∧ j < n.n1 ∧ k < n.n2 ∧ offset_jki n i j k = p := by
  have hp' : p < n.n1 * (n.n2 * n.n0) := by
    have : n.N = n.n1 * (n.n2 * n.n0) := by unfold Dims.N; ring
    omega
  obtain ⟨hj, hr, hrec⟩ := digit_surj hp'
  obtain ⟨hk, hi, hrec2⟩ := digit_surj hr
  refine ⟨p % (n.n2 * n.n0) % n.n0, p / (n.n2 * n.n0), p % (n.n2 * n.n0) / n.n0,
    hi, hj, hk, ?_⟩
  rw [offset_jki_eq, hrec2, hrec]

lemma offset_jik_surj {n : Dims} {p : Nat} (hp : p < n.N) :
    ∃ i j k, i < n.n0 ∧ j < n.n1 ∧ k < n.n2 ∧ offset_jik n i j k = p := by
  have hp' : p < n.n1 * (n.n0 * n.n2) := by
    have : n.N = n.n1 * (n.n0 * n.n2) := by unfold Dims.N; ring
    omega
  obtain ⟨hj, hr, hrec⟩ := digit_surj hp'
  obtain ⟨hi, hk, hrec2⟩ := digit_surj hr
  refine ⟨p % (n.n0 * n.n2) / n.n2, p / (n.n0 * n.n2), p % (n.n0 * n.n2) % n.n2,
    hi, hj, hk, ?_⟩
  rw [offset_jik_eq, hrec2, hrec]

/-- C2: for every positive dimension triple, each of `offset_ijk`,
`offset_jki`, `offset_jik` restricted to the index cube is a bijection onto
`[0, n0*n1*n2)`: it maps into the range, with no collisions and no gaps. -/
theorem offset_functions_cube_bijection (n : Dims)
    (h0 : 0 < n.n0) (h1 : 0 < n.n1) (h2 : 0 < n.n2) :
    IsCubeBijection n (offset_ijk n) ∧ IsCubeBijection n (offset_jki n) ∧
      IsCubeBijection n (offset_jik n) := by
  refine ⟨⟨?_, ?_, ?_⟩, ⟨?_, ?_, ?_⟩, ⟨?_, ?_, ?_⟩⟩
  · exact fun i j k hi hj hk => offset_ijk_lt hi hj hk
  · exact fun i j k i' j' k' _ hj hk _ hj' hk' h => offset_ijk_inj hj hk hj' hk' h
  · exact fun p hp => offset_ijk_surj hp
  · exact fun i j k hi hj hk => offset_jki_lt hi hj hk
  · exact fun i j k i' j' k' hi _ hk hi' _ hk' h => offset_jki_inj hi hk hi' hk' h
  · exact fun p hp => offset_jki_surj hp
  · exact fun i j k hi hj hk => offset_jik_lt hi hj hk
  · exact fun i j k i' j' k' hi _ hk hi' _ hk' h => offset_jik_inj hi hk hi' hk' h
  · exact fun p hp => offset_jik_surj hp

/-- Witness for C2 at the concrete dimensions (2,3,4). -/
theorem offset_functions_cube_bijection_witness :
    IsCubeBijection d234 (offset_jki d234) :=
  (offset_functions_cube_bijection d234 (by decide) (by decide) (by decide)).2.1

lemma writes_cons {α : Type} (x : Nat × α) (tl : List (Nat × α)) (out : Nat → α) :
    writes (x :: tl) out = writes tl (upd out x.1 x.2) := rfl

lemma writes_append {α : Type} (l₁ l₂ : List (Nat × α)) (out : Nat → α) :
    writes (l₁ ++ l₂) out = writes l₂ (writes l₁ out) := by
  unfold writes; rw [List.foldl_append]

/-- A position no store targets keeps its previous content. -/
lemma writes_apply_of_forall_ne {α : Type} {ws : List (Nat × α)} {p : Nat}
    (h : ∀ pv ∈ ws, pv.1 ≠ p) (out : Nat → α) : writes ws out p = out p := by
  induction ws generalizing out with
  | nil => rfl
  | cons x tl ih =>
    rw [writes_cons, ih (fun pv hpv => h pv (List.mem_cons_of_mem _ hpv))]
    unfold upd
    rw [if_neg (fun hc => h x (List.mem_cons_self x tl) hc.symm)]

/-- A position all of whose stores carry the same value ends with it. -/
lemma writes_apply_unique {α : Type} {ws : List (Nat × α)} {p : Nat} {v : α}
    (hmem : (p, v) ∈ ws) (huniq : ∀ w, (p, w) ∈ ws → w = v) (out : Nat → α) :
    writes ws out p = v := by
  induction ws generalizing out with
  | nil => cases hmem
  | cons x tl ih =>
    rw [writes_cons]
    by_cases htl : ∃ w, (p, w) ∈ tl
    · obtain ⟨w, hw⟩ := htl
      have hwv : w = v := huniq w (List.mem_cons_of_mem _ hw)
      subst hwv
      exact ih hw (fun w' hw' => huniq w' (List.mem_cons_of_mem _ hw')) _
    · push_neg at htl
      have hx : x = (p, v) := by
        rcases List.mem_cons.mp hmem with h | h
        · exact h.symm
        · exact absurd h (htl v)
      subst hx
      have hne : ∀ pv ∈ tl, pv.1 ≠ p := by
        rintro ⟨q, w⟩ hpv hc
        have hq : q = p := hc
        subst hq
        exact htl w hpv
      rw [writes_apply_of_forall_ne hne]
      simp [upd]

lemma mem_order_ijk {n : Dims} {t : Nat × Nat × Nat} :
    t ∈ order_ijk n ↔ t.1 < n.n0 ∧ t.2.1 < n.n1 ∧ t.2.2 < n.n2 := by
  obtain ⟨i, j, k⟩ := t
  simp only [order_ijk, List.mem_flatMap, List.mem_map, List.mem_range]
  constructor
  · rintro ⟨a, ha, b, hb, c, hc, heq⟩
    simp only [Prod.mk.injEq] at heq
    obtain ⟨rfl, rfl, rfl⟩ := heq
    exact ⟨ha, hb, hc⟩
  · rintro ⟨hi, hj, hk⟩
    exact ⟨i, hi, j, hj, k, hk, rfl⟩

lemma mem_order_jki {n : Dims} {t : Nat × Nat × Nat} :
    t ∈ order_jki n ↔ t.1 < n.n0 ∧ t.2.1 < n.n1 ∧ t.2.2 < n.n2 := by
  obtain ⟨i, j, k⟩ := t
  simp only [order_jki, List.mem_flatMap, List.mem_map, List.mem_range]
  constructor
  · rintro ⟨b, hb, c, hc, a, ha, heq⟩
    simp only [Prod.mk.injEq] at heq
    obtain ⟨rfl, rfl, rfl⟩ := heq
    exact ⟨ha, hb, hc⟩
  · rintro ⟨hi, hj, hk⟩
    exact ⟨j, hj, k, hk, i, hi, rfl⟩

lemma mem_order_jik {n : Dims} {t : Nat × Nat × Nat} :
    t ∈ order_jik n ↔ t.1 < n.n0 ∧ t.2.1 < n.n1 ∧ t.2.2 < n.n2 := by
  obtain ⟨i, j, k⟩ := t
  simp only [order_jik, List.mem_flatMap, List.mem_map, List.mem_range]
  constructor
  · rintro ⟨b, hb, a, ha, c, hc, heq⟩
    simp only [Prod.mk.injEq] at heq
    obtain ⟨rfl, rfl, rfl⟩ := heq
    exact ⟨ha, hb, hc⟩
  · rintro ⟨hi, hj, hk⟩
    exact ⟨j, hj, i, hi, k, hk, rfl⟩

lemma mem_pairs_jk {n : Dims} {q : Nat × Nat} :
    q ∈ pairs_jk n ↔ q.1 < n.n1 ∧ q.2 < n.n2 := by
  obtain ⟨j, k⟩ := q
  simp only [pairs_jk, List.mem_flatMap, List.mem_map, List.mem_range]
  constructor
  · rintro ⟨b, hb, c, hc, heq⟩
    simp only [Prod.mk.injEq] at heq
    obtain ⟨rfl, rfl⟩ := heq
    exact ⟨hb, hc⟩
  · rintro ⟨hj, hk⟩
    exact ⟨j, hj, k, hk, rfl⟩

lemma mem_pairs_ji {n : Dims} {q : Nat × Nat} :
    q ∈ pairs_ji n ↔ q.1 < n.n1 ∧ q.2 < n.n0 := by
  obtain ⟨j, i⟩ := q
  simp only [pairs_ji, List.mem_flatMap, List.mem_map, List.mem_range]
  constructor
  · rintro ⟨b, hb, a, ha, heq⟩
    simp only [Prod.mk.injEq] at heq
    obtain ⟨rfl, rfl⟩ := heq
    exact ⟨hb, ha⟩
  · rintro ⟨hj, hi⟩
    exact ⟨j, hj, i, hi, rfl⟩

/-- Unfolding a block-structured fold that threads a reused scratch buffer:
when each filled block is scratch-independent, the output is the
concatenation of its block write lists. -/
lemma foldl_writes_blocks {α β : Type} (L : List β)
    (fill : β → (Nat → α) → (Nat → α)) (wl : β → (Nat → α) → List (Nat × α))
    (W : β → List (Nat × α)) (hW : ∀ x s, wl x (fill x s) = W x) :
    ∀ (out scr : Nat → α),
      (L.foldl (fun st x => (writes (wl x (fill x st.2)) st.1, fill x st.2))
        (out, scr)).1 = writes (L.flatMap W) out := by
  induction L with
  | nil => intro out scr; rfl
  | cons x tl ih =>
    intro out scr
    rw [List.foldl_cons, List.flatMap_cons, writes_append]
    dsimp only
    rw [hW x scr]
    exact ih (writes (W x) out) (fill x scr)

/-- The accumulating variant of `foldl_writes_blocks`, used for the
initializer's sequential block writes. -/
lemma foldl_append_blocks {α β : Type} (L : List β)
    (fill : β → (Nat → α) → (Nat → α)) (bl : β → (Nat → α) → List α)
    (Bc : β → List α) (hB : ∀ x s, bl x (fill x s) = Bc x) :
    ∀ (acc : List α) (scr : Nat → α),
      (L.foldl (fun st x => (st.1 ++ bl x (fill x st.2), fill x st.2))
        (acc, scr)).1 = acc ++ L.flatMap Bc := by
  induction L with
  | nil => intro acc scr; simp
  | cons x tl ih =>
    intro acc scr
    rw [List.foldl_cons, List.flatMap_cons]
    rw [ih, hB, List.append_assoc]

/-- Content of the filled vector_output scratch below `n2`. -/
lemma voFill_apply {α : Type} (n : Dims) (inp : Nat → α) (ji : Nat × Nat)
    (scr : Nat → α) {m : Nat} (hm : m < n.n2) :
    voFill n inp ji scr m = inp (offset_jki n ji.2 ji.1 m) := by
  unfold voFill
  refine writes_apply_unique ?_ ?_ scr
  · exact List.mem_map.mpr ⟨m, List.mem_range.mpr hm, rfl⟩
  · intro w hw
    obtain ⟨k, _, hk⟩ := List.mem_map.mp hw
    simp only [Prod.mk.injEq] at hk
    obtain ⟨rfl, rfl⟩ := hk
    rfl

/-- The filled vector_output block equals its derived write list. -/
lemma voOut_voFill {α : Type} (n : Dims) (inp : Nat → α) (ji : Nat × Nat)
    (s : Nat → α) : voOut n ji (voFill n inp ji s) = voW n inp ji := by
  unfold voOut voW
  refine List.map_congr_left ?_
  intro m hm
  rw [voFill_apply n inp ji s (List.mem_range.mp hm)]

/-- Content of the transposed matrix scratch below `n0*n2`. -/
lemma matFill_apply {α : Type} (n : Dims) (inp : Nat → α) (j : Nat)
    (scr : Nat → α) {m : Nat} (hm : m < n.n0 * n.n2) :
    matFill n inp j scr m =
      inp (offset_jki n 0 j 0 + (m % n.n2 * n.n0 + m / n.n2)) := by
  obtain ⟨hi, hk, hrec⟩ := digit_surj hm
  unfold matFill
  refine writes_apply_unique ?_ ?_ scr
  · refine List.mem_flatMap.mpr ⟨m / n.n2, List.mem_range.mpr hi, ?_⟩
    refine List.mem_map.mpr ⟨m % n.n2, List.mem_range.mpr hk, ?_⟩
    rw [hrec]
  · intro w hw
    obtain ⟨a, ha, hw'⟩ := List.mem_flatMap.mp hw
    obtain ⟨b, hb, hab⟩ := List.mem_map.mp hw'
    simp only [Prod.mk.injEq] at hab
    obtain ⟨hkey, rfl⟩ := hab
    have hb' := List.mem_range.mp hb
    have := digit_inj hb' (Nat.mod_lt m (by omega)) (by rw [hkey, hrec])
    rw [this.1, this.2]

/-- The transposed matrix block equals its derived write list. -/
lemma matOut_matFill {α : Type} (n : Dims) (inp : Nat → α) (j : Nat)
    (s : Nat → α) : matOut n j (matFill n inp j s) = matW n inp j := by
  unfold matOut matW
  refine List.map_congr_left ?_
  intro m hm
  rw [matFill_apply n inp j s (List.mem_range.mp hm)]

/-- vector_output conversion as one flat write list. -/
lemma convert_vo_eq {α : Type} (n : Dims) (inp out scr : Nat → α) :
    convert_vo n inp out scr = writes ((pairs_ji n).flatMap (voW n inp)) out := by
  unfold convert_vo
  exact foldl_writes_blocks (pairs_ji n) (voFill n inp) (voOut n) (voW n inp)
    (voOut_voFill n inp) out scr

/-- matrix conversion as one flat write list. -/
lemma convert_mat_eq {α : Type} (n : Dims) (inp out scr : Nat → α) :
    convert_mat n inp out scr = writes ((List.range n.n1).flatMap (matW n inp)) out := by
  unfold convert_mat
  exact foldl_writes_blocks (List.range n.n1) (matFill n inp) (matOut n)
    (matW n inp) (matOut_matFill n inp) out scr

lemma offset_jki_add_i (n : Dims) (i j k : Nat) :
    offset_jki n 0 j k + i = offset_jki n i j k := by
  unfold offset_jki; ring

lemma offset_jki_add_block (n : Dims) (i j k : Nat) :
    offset_jki n 0 j 0 + (k * n.n0 + i) = offset_jki n i j k := by
  unfold offset_jki; ring

lemma offset_jik_add_k (n : Dims) (i j k : Nat) :
    offset_jik n i j 0 + k = offset_jik n i j k := by
  unfold offset_jik; ring

lemma offset_jik_add_block (n : Dims) (i j k : Nat) :
    offset_jik n 0 j 0 + (i * n.n2 + k) = offset_jik n i j k := by
  unfold offset_jik; ring

/-- Central correctness of the conversion engine: every one of the six
algorithms leaves, at output position `offset_jik(i,j,k)`, the input
element from position `offset_jki(i,j,k)`. -/
lemma convert_correct {α : Type} (alg : Algorithm) (n : Dims)
    (inp out scr : Nat → α) {i j k : Nat}
    (hi : i < n.n0) (hj : j < n.n1) (hk : k < n.n2) :
    convert alg n inp out scr (offset_jik n i j k) =
      inp (offset_jki n i j k) := by
  cases alg with
  | ijk_map =>
    show writes (mapWrites n inp (order_ijk n)) out _ = _
    refine writes_apply_unique ?_ ?_ out
    · exact List.mem_map.mpr ⟨(i, j, k), mem_order_ijk.mpr ⟨hi, hj, hk⟩, rfl⟩
    · intro w hw
      obtain ⟨t, ht, hteq⟩ := List.mem_map.mp hw
      obtain ⟨hti, htj, htk⟩ := mem_order_ijk.mp ht
      simp only [Prod.mk.injEq] at hteq
      obtain ⟨hkey, rfl⟩ := hteq
      obtain ⟨rfl, rfl, rfl⟩ := offset_jik_inj hti htk hi hk hkey
      rfl
  | jki_map =>
    show writes (mapWrites n inp (order_jki n)) out _ = _
    refine writes_apply_unique ?_ ?_ out
    · exact List.mem_map.mpr ⟨(i, j, k), mem_order_jki.mpr ⟨hi, hj, hk⟩, rfl⟩
    · intro w hw
      obtain ⟨t, ht, hteq⟩ := List.mem_map.mp hw
      obtain ⟨hti, htj, htk⟩ := mem_order_jki.mp ht
      simp only [Prod.mk.injEq] at hteq
      obtain ⟨hkey, rfl⟩ := hteq
      obtain ⟨rfl, rfl, rfl⟩ := offset_jik_inj hti htk hi hk hkey
      rfl
  | jik_map =>
    show writes (mapWrites n inp (order_jik n)) out _ = _
    refine writes_apply_unique ?_ ?_ out
    · exact List.mem_map.mpr ⟨(i, j, k), mem_order_jik.mpr ⟨hi, hj, hk⟩, rfl⟩
    · intro w hw
      obtain ⟨t, ht, hteq⟩ := List.mem_map.mp hw
      obtain ⟨hti, htj, htk⟩ := mem_order_jik.mp ht
      simp only [Prod.mk.injEq] at hteq
      obtain ⟨hkey, rfl⟩ := hteq
      obtain ⟨rfl, rfl, rfl⟩ := offset_jik_inj hti htk hi hk hkey
      rfl
  | vector_input =>
    show writes (viWrites n inp) out _ = _
    refine writes_apply_unique ?_ ?_ out
    · refine List.mem_flatMap.mpr ⟨(j, k), mem_pairs_jk.mpr ⟨hj, hk⟩, ?_⟩
      refine List.mem_map.mpr ⟨i, List.mem_range.mpr hi, ?_⟩
      rw [offset_jki_add_i]
    · intro w hw
      obtain ⟨jk, hjk, hw'⟩ := List.mem_flatMap.mp hw
      obtain ⟨a, ha, hav⟩ := List.mem_map.mp hw'
      obtain ⟨hjk1, hjk2⟩ := mem_pairs_jk.mp hjk
      have ha' := List.mem_range.mp ha
      simp only [Prod.mk.injEq] at hav
      obtain ⟨hkey, rfl⟩ := hav
      obtain ⟨rfl, rfl, rfl⟩ := offset_jik_inj ha' hjk2 hi hk hkey
      rw [offset_jki_add_i]
  | vector_output =>
    rw [show convert Algorithm.vector_output n inp out scr = convert_vo n inp out scr from rfl,
      convert_vo_eq]
    refine writes_apply_unique ?_ ?_ out
    · refine List.mem_flatMap.mpr ⟨(j, i), mem_pairs_ji.mpr ⟨hj, hi⟩, ?_⟩
      refine List.mem_map.mpr ⟨k, List.mem_range.mpr hk, ?_⟩
      rw [offset_jik_add_k]
    · intro w hw
      obtain ⟨ji, hji, hw'⟩ := List.mem_flatMap.mp hw
      obtain ⟨m, hm, hmv⟩ := List.mem_map.mp hw'
      obtain ⟨hji1, hji2⟩ := mem_pairs_ji.mp hji
      have hm' := List.mem_range.mp hm
      simp only [voW, Prod.mk.injEq] at hmv
      obtain ⟨hkey, rfl⟩ := hmv
      rw [offset_jik_add_k] at hkey
      obtain ⟨rfl, rfl, rfl⟩ := offset_jik_inj hji2 hm' hi hk hkey
      rfl
  | matrix =>
    rw [show convert Algorithm.matrix n inp out scr = convert_mat n inp out scr from rfl,
      convert_mat_eq]
    refine writes_apply_unique ?_ ?_ out
    · refine List.mem_flatMap.mpr ⟨j, List.mem_range.mpr hj, ?_⟩
      refine List.mem_map.mpr ⟨i * n.n2 + k, List.mem_range.mpr (digit_lt hi hk), ?_⟩
      have h1 : (i * n.n2 + k) % n.n2 = k := (digit_split hk).1
      have h2 : (i * n.n2 + k) / n.n2 = i := (digit_split hk).2
      simp only [Prod.mk.injEq]
      rw [h1, h2]
      exact ⟨offset_jik_add_block n i j k, congrArg inp (offset_jki_add_block n i j k)⟩
    · intro w hw
      obtain ⟨b, hb, hw'⟩ := List.mem_flatMap.mp hw
      obtain ⟨m, hm, hmv⟩ := List.mem_map.mp hw'
      have hb' := List.mem_range.mp hb
      have hm' := List.mem_range.mp hm
      simp only [matW, Prod.mk.injEq] at hmv
      obtain ⟨hkey, rfl⟩ := hmv
      rw [← offset_jik_add_block n i j k] at hkey
      have hin : i * n.n2 + k < n.n0 * n.n2 := digit_lt hi hk
      have e1 : offset_jik n 0 b 0 = b * (n.n0 * n.n2) := by
        rw [offset_jik_eq]; ring
      have e2 : offset_jik n 0 j 0 = j * (n.n0 * n.n2) := by
        rw [offset_jik_eq]; ring
      rw [e1, e2] at hkey
      obtain ⟨rfl, rfl⟩ := digit_inj hm' hin hkey
      have h1 : (i * n.n2 + k) % n.n2 = k := (digit_split hk).1
      have h2 : (i * n.n2 + k) / n.n2 = i := (digit_split hk).2
      rw [h1, h2, offset_jki_add_block]

/-- C1: for positive dimensions and an input file covering the whole cube,
every one of the six conversion algorithms realizes the same semantic
transform — the output element at `offset_jik(i,j,k)` equals the input
element at `offset_jki(i,j,k)` — and consequently any two algorithms
produce identical output content on the whole data region
`[0, n0*n1*n2)`, whatever prior output and scratch contents they start
from. -/
theorem conversion_algorithms_equivalent {α : Type} (alg alg' : Algorithm)
    (n : Dims) (h0 : 0 < n.n0) (h1 : 0 < n.n1) (h2 : 0 < n.n2)
    (inp out scr out' scr' : Nat → α) :
    (∀ i j k, i < n.n0 → j < n.n1 → k < n.n2 →
      convert alg n inp out scr (offset_jik n i j k) =
        inp (offset_jki n i j k)) ∧
    (∀ p, p < n.N →
      convert alg n inp out scr p = convert alg' n inp out' scr' p) := by
  refine ⟨fun i j k hi hj hk => convert_correct alg n inp out scr hi hj hk, ?_⟩
  intro p hp
  obtain ⟨i, j, k, hi, hj, hk, hoff⟩ := offset_jik_surj hp
  rw [← hoff, convert_correct alg n inp out scr hi hj hk,
    convert_correct alg' n inp out' scr' hi hj hk]

/-- Witness for C1: the matrix and vector_input algorithms at (2,2,2). -/
theorem conversion_algorithms_equivalent_witness :
    convert Algorithm.matrix d222 natId natZero natZero (offset_jik d222 1 0 1) =
      natId (offset_jki d222 1 0 1) ∧
    convert Algorithm.matrix d222 natId natZero natZero 3 =
      convert Algorithm.vector_input d222 natId natZero natZero 3 := by
  refine ⟨?_, ?_⟩
  · exact (conversion_algorithms_equivalent Algorithm.matrix Algorithm.vector_input
      d222 (by decide) (by decide) (by decide) natId natZero natZero natZero
      natZero).1 1 0 1 (by decide) (by decide) (by decide)
  · exact (conversion_algorithms_equivalent Algorithm.matrix Algorithm.vector_input
      d222 (by decide) (by decide) (by decide) natId natZero natZero natZero
      natZero).2 3 (by decide)

lemma length_flatMap_const {β : Type} {f : Nat → List β} {L : Nat}
    (hf : ∀ a, (f a).length = L) (A : Nat) :
    ((List.range A).flatMap f).length = A * L := by
  induction A with
  | zero => simp
  | succ A ih =>
    rw [List.range_succ A, List.flatMap_append, List.length_append, ih]
    simp [hf]
    ring

/-- Indexing into a concatenation of equal-length blocks. -/
lemma getElem?_flatMap_range {β : Type} {f : Nat → List β} {L : Nat}
    (hf : ∀ a, (f a).length = L) :
    ∀ {A a r : Nat}, a < A → r < L →
      ((List.range A).flatMap f)[a * L + r]? = (f a)[r]? := by
  intro A
  induction A with
  | zero => intro a r ha _; exact absurd ha (Nat.not_lt_zero a)
  | succ A ih =>
    intro a r ha hr
    rw [List.range_succ A, List.flatMap_append, List.getElem?_append,
      length_flatMap_const hf A]
    rcases Nat.lt_or_ge a A with hcase | hcase
    · rw [if_pos (digit_lt hcase hr)]
      exact ih hcase hr
    · have haA : a = A := by omega
      subst haA
      rw [if_neg (by omega), Nat.add_sub_cancel_left]
      simp

lemma order_ijk_get {n : Dims} {i j k : Nat}
    (hi : i < n.n0) (hj : j < n.n1) (hk : k < n.n2) :
    (order_ijk n)[offset_ijk n i j k]? = some (i, j, k) := by
  rw [offset_ijk_eq]
  unfold order_ijk
  rw [getElem?_flatMap_range
    (fun a => length_flatMap_const (fun b => by simp) n.n1) hi (digit_lt hj hk)]
  rw [getElem?_flatMap_range (fun b => by simp) hj hk]
  simp [List.getElem?_map, List.getElem?_range, hk]

lemma order_jki_get {n : Dims} {i j k : Nat}
    (hi : i < n.n0) (hj : j < n.n1) (hk : k < n.n2) :
    (order_jki n)[offset_jki n i j k]? = some (i, j, k) := by
  rw [offset_jki_eq]
  unfold order_jki
  rw [getElem?_flatMap_range
    (fun a => length_flatMap_const (fun b => by simp) n.n2) hj (digit_lt hk hi)]
  rw [getElem?_flatMap_range (fun b => by simp) hk hi]
  simp [List.getElem?_map, List.getElem?_range, hi]

/-- Flattening a loop over enumerated pairs into two nested loops. -/
lemma flatMap_pairs {β : Type} (A B : Nat) (g : Nat → Nat → List β) :
    ((List.range A).flatMap fun a => (List.range B).map fun b => (a, b)).flatMap
        (fun q : Nat × Nat => g q.1 q.2) =
      (List.range A).flatMap fun a => (List.range B).flatMap fun b => g a b := by
  rw [List.flatMap_assoc]
  congr 1
  funext a
  rw [List.flatMap_map]

lemma offset_jki_eq' (n : Dims) (i j k : Nat) :
    offset_jki n i j k = j * (n.n0 * n.n2) + (k * n.n0 + i) := by
  unfold offset_jki; ring

lemma viInitFill_apply (n : Dims) (jk : Nat × Nat) (scr : Nat → Nat) {i : Nat}
    (hi : i < n.n0) : viInitFill n jk scr i = offset_jki n i jk.1 jk.2 := by
  unfold viInitFill
  refine writes_apply_unique ?_ ?_ scr
  · exact List.mem_map.mpr ⟨i, List.mem_range.mpr hi, rfl⟩
  · intro w hw
    obtain ⟨a, _, ha⟩ := List.mem_map.mp hw
    simp only [Prod.mk.injEq] at ha
    obtain ⟨rfl, rfl⟩ := ha
    rfl

lemma voInitFill_apply (n : Dims) (ji : Nat × Nat) (scr : Nat → Nat) {k : Nat}
    (hk : k < n.n2) : voInitFill n ji scr k = offset_jki n ji.2 ji.1 k := by
  unfold voInitFill
  refine writes_apply_unique ?_ ?_ scr
  · exact List.mem_map.mpr ⟨k, List.mem_range.mpr hk, rfl⟩
  · intro w hw
    obtain ⟨a, _, ha⟩ := List.mem_map.mp hw
    simp only [Prod.mk.injEq] at ha
    obtain ⟨rfl, rfl⟩ := ha
    rfl

lemma matInitFill_apply (n : Dims) (j : Nat) (scr : Nat → Nat) {m : Nat}
    (hm : m < n.n0 * n.n2) :
    matInitFill n j scr m = offset_jki n (m % n.n0) j (m / n.n0) := by
  have hn0 : 0 < n.n0 := by
    rcases Nat.eq_zero_or_pos n.n0 with h | h
    · rw [h] at hm; simp at hm
    · exact h
  unfold matInitFill
  refine writes_apply_unique ?_ ?_ scr
  · refine List.mem_flatMap.mpr
      ⟨m / n.n0, List.mem_range.mpr (Nat.div_lt_of_lt_mul hm), ?_⟩
    refine List.mem_map.mpr ⟨m % n.n0, List.mem_range.mpr (Nat.mod_lt _ hn0), ?_⟩
    rw [Nat.div_add_mod]
  · intro w hw
    obtain ⟨kk, hkk, hw'⟩ := List.mem_flatMap.mp hw
    obtain ⟨ii, hii, hia⟩ := List.mem_map.mp hw'
    simp only [Prod.mk.injEq] at hia
    obtain ⟨hkey, rfl⟩ := hia
    have hii' := List.mem_range.mp hii
    have hkey' : kk * n.n0 + ii = m := by rw [← hkey]; ring
    have hmod : m % n.n0 = ii := by rw [← hkey']; exact (digit_split hii').1
    have hdiv : m / n.n0 = kk := by rw [← hkey']; exact (digit_split hii').2
    rw [hmod, hdiv]

lemma initValues_vi_eq (n : Dims) (scr : Nat → Nat) :
    initValues Algorithm.vector_input n scr =
      (List.range n.n1).flatMap fun j => (List.range n.n2).flatMap fun k =>
        (List.range n.n0).map fun i => offset_jki n i j k := by
  have h := foldl_append_blocks (pairs_jk n) (viInitFill n)
    (fun jk v => (List.range n.n0).map v)
    (fun jk => (List.range n.n0).map fun i => offset_jki n i jk.1 jk.2)
    (fun jk s => List.map_congr_left fun i hi =>
      viInitFill_apply n jk s (List.mem_range.mp hi)) [] scr
  rw [List.nil_append] at h
  calc initValues Algorithm.vector_input n scr
      = (pairs_jk n).flatMap
          (fun q : Nat × Nat => (List.range n.n0).map fun i =>
            offset_jki n i q.1 q.2) := h
    _ = (List.range n.n1).flatMap fun j => (List.range n.n2).flatMap fun k =>
          (List.range n.n0).map fun i => offset_jki n i j k :=
        flatMap_pairs n.n1 n.n2 fun j k =>
          (List.range n.n0).map fun i => offset_jki n i j k

lemma initValues_vo_eq (n : Dims) (scr : Nat → Nat) :
    initValues Algorithm.vector_output n scr =
      (List.range n.n1).flatMap fun j => (List.range n.n0).flatMap fun i =>
        (List.range n.n2).map fun k => offset_jki n i j k := by
  have h := foldl_append_blocks (pairs_ji n) (voInitFill n)
    (fun ji v => (List.range n.n2).map v)
    (fun ji => (List.range n.n2).map fun k => offset_jki n ji.2 ji.1 k)
    (fun ji s => List.map_congr_left fun k hk =>
      voInitFill_apply n ji s (List.mem_range.mp hk)) [] scr
  rw [List.nil_append] at h
  calc initValues Algorithm.vector_output n scr
      = (pairs_ji n).flatMap
          (fun q : Nat × Nat => (List.range n.n2).map fun k =>
            offset_jki n q.2 q.1 k) := h
    _ = (List.range n.n1).flatMap fun j => (List.range n.n0).flatMap fun i =>
          (List.range n.n2).map fun k => offset_jki n i j k :=
        flatMap_pairs n.n1 n.n0 fun j i =>
          (List.range n.n2).map fun k => offset_jki n i j k

lemma initValues_mat_eq (n : Dims) (scr : Nat → Nat) :
    initValues Algorithm.matrix n scr =
      (List.range n.n1).flatMap fun j => (List.range (n.n0 * n.n2)).map fun m =>
        offset_jki n (m % n.n0) j (m / n.n0) := by
  have h := foldl_append_blocks (List.range n.n1) (matInitFill n)
    (fun j v => (List.range (n.n0 * n.n2)).map v)
    (fun j => (List.range (n.n0 * n.n2)).map fun m =>
      offset_jki n (m % n.n0) j (m / n.n0))
    (fun j s => List.map_congr_left fun m hm =>
      matInitFill_apply n j s (List.mem_range.mp hm)) [] scr
  rw [List.nil_append] at h
  exact h

/-- What each initializer variant stores where: its traversal step for
coordinate `(i,j,k)` writes the value `seedOffset alg n i j k` at element
position `seedPos alg n i j k`. -/
lemma initValues_get (alg : Algorithm) (n : Dims) (scr : Nat → Nat)
    {i j k : Nat} (hi : i < n.n0) (hj : j < n.n1) (hk : k < n.n2) :
    (initValues alg n scr)[seedPos alg n i j k]? =
      some (seedOffset alg n i j k) := by
  cases alg with
  | ijk_map =>
    simp only [initValues, seedPos, seedOffset]
    rw [List.getElem?_map, order_ijk_get hi hj hk]
    rfl
  | jki_map =>
    simp only [initValues, seedPos, seedOffset]
    rw [List.getElem?_map, order_jki_get hi hj hk]
    rfl
  | jik_map =>
    simp only [initValues, seedPos, seedOffset]
    rw [List.getElem?_map, order_ijk_get hi hj hk]
    rfl
  | vector_input =>
    rw [show seedPos Algorithm.vector_input n i j k = offset_jki n i j k from rfl,
      show seedOffset Algorithm.vector_input n i j k = offset_jki n i j k from rfl,
      initValues_vi_eq, offset_jki_eq]
    rw [getElem?_flatMap_range
      (fun a => length_flatMap_const (fun b => by simp) n.n2) hj (digit_lt hk hi)]
    rw [getElem?_flatMap_range (fun b => by simp) hk hi]
    rw [List.getElem?_map]
    simp [List.getElem?_range, hi]
    rw [offset_jki_eq]
  | vector_output =>
    rw [show seedPos Algorithm.vector_output n i j k = offset_jik n i j k from rfl,
      show seedOffset Algorithm.vector_output n i j k = offset_jki n i j k from rfl,
      initValues_vo_eq, offset_jik_eq]
    rw [getElem?_flatMap_range
      (fun a => length_flatMap_const (fun b => by simp) n.n0) hj (digit_lt hi hk)]
    rw [getElem?_flatMap_range (fun b => by simp) hi hk]
    rw [List.getElem?_map]
    simp [List.getElem?_range, hk]
  | matrix =>
    rw [show seedPos Algorithm.matrix n i j k = offset_jki n i j k from rfl,
      show seedOffset Algorithm.matrix n i j k = offset_jki n i j k from rfl,
      initValues_mat_eq, offset_jki_eq']
    rw [getElem?_flatMap_range (fun a => by simp) hj
      (by rw [Nat.mul_comm n.n0 n.n2]; exact digit_lt hk hi)]
    rw [List.getElem?_map]
    have hb : k * n.n0 + i < n.n0 * n.n2 := by
      rw [Nat.mul_comm n.n0 n.n2]; exact digit_lt hk hi
    simp [List.getElem?_range, hb]
    rw [(digit_split hi).1, (digit_split hi).2, offset_jki_eq']

/-- C3 counterexample: at dimensions (2,2,2) the jik_map initializer's
traversal step for coordinate (1,0,0) — the step at traversal rank
`offset_ijk(1,0,0) = 4`, since that variant loops in i,j,k order — stores
the value `offset_jik(1,0,0) = 2`, not `offset_jki(1,0,0) = 1` as the
claim states. -/
theorem jik_initializer_seeds_jik_not_jki :
    (initValues Algorithm.jik_map d222 natZero)[offset_ijk d222 1 0 0]? =
      some (offset_jik d222 1 0 0) ∧
    (initValues Algorithm.jik_map d222 natZero)[offset_ijk d222 1 0 0]? ≠
      some (offset_jki d222 1 0 0) := by
  decide

/-- C3 amended: in the initializer phase, the value stored by the traversal
step at coordinate (i,j,k) is `offset_jki(i,j,k)` for the jki_map,
vector_input, vector_output and matrix variants, `offset_ijk(i,j,k)` for
the ijk_map variant, and `offset_jik(i,j,k)` for the jik_map variant
(`seedOffset`); that step lands at the element position `seedPos`
determined by the variant's loop nesting. -/
theorem initializer_seed_values (alg : Algorithm) (n : Dims) (scr : Nat → Nat)
    {i j k : Nat} (hi : i < n.n0) (hj : j < n.n1) (hk : k < n.n2) :
    (initValues alg n scr)[seedPos alg n i j k]? =
      some (seedOffset alg n i j k) :=
  initValues_get alg n scr hi hj hk

/-- Witness for the amended C3 at (2,2,2), matrix variant, point (1,1,1). -/
theorem initializer_seed_values_witness :
    (initValues Algorithm.matrix d222 natZero)[seedPos Algorithm.matrix d222 1 1 1]? =
      some (seedOffset Algorithm.matrix d222 1 1 1) :=
  initializer_seed_values Algorithm.matrix d222 natZero
    (by decide) (by decide) (by decide)

/-- C7: at dimensions (2,2,2), initializing with jki_map writes the values
0..7 at consecutive element positions 0..7, and converting that file with
any of ijk_map, jki_map, jik_map yields the output element sequence
[0, 2, 1, 3, 4, 6, 5, 7] at positions 0..7 (whatever the output file held
before; taken to be zero here). -/
theorem concrete_scenario_222 :
    initValues Algorithm.jki_map d222 natZero = [0, 1, 2, 3, 4, 5, 6, 7] ∧
    (List.range 8).map (convert Algorithm.ijk_map d222 (initFile d222) natZero natZero)
      = [0, 2, 1, 3, 4, 6, 5, 7] ∧
    (List.range 8).map (convert Algorithm.jki_map d222 (initFile d222) natZero natZero)
      = [0, 2, 1, 3, 4, 6, 5, 7] ∧
    (List.range 8).map (convert Algorithm.jik_map d222 (initFile d222) natZero natZero)
      = [0, 2, 1, 3, 4, 6, 5, 7] := by
  decide

/-- C8: for every positive dimension triple, the jki_map initializer stores
value `p` at every element position `p` of the data region, and converting
the initialized file with the default algorithm (jki_map) leaves
`offset_jki(i,j,k)` at output position `offset_jik(i,j,k)` for every cube
point. -/
theorem round_trip_default (n : Dims)
    (h0 : 0 < n.n0) (h1 : 0 < n.n1) (h2 : 0 < n.n2) (out scr : Nat → Nat) :
    (∀ p, p < n.N → (initValues Algorithm.jki_map n natZero)[p]? = some p) ∧
    (∀ i j k, i < n.n0 → j < n.n1 → k < n.n2 →
      convert Algorithm.jki_map n (initFile n) out scr (offset_jik n i j k) =
        offset_jki n i j k) := by
  have hchar : ∀ p, p < n.N →
      (initValues Algorithm.jki_map n natZero)[p]? = some p := by
    intro p hp
    obtain ⟨i, j, k, hi, hj, hk, rfl⟩ := offset_jki_surj hp
    exact initValues_get Algorithm.jki_map n natZero hi hj hk
  refine ⟨hchar, ?_⟩
  intro i j k hi hj hk
  rw [convert_correct Algorithm.jki_map n (initFile n) out scr hi hj hk]
  show (initValues Algorithm.jki_map n natZero).getD (offset_jki n i j k) 0 = _
  rw [List.getD_eq_getElem?_getD,
    hchar (offset_jki n i j k) (offset_jki_lt hi hj hk)]
  rfl

/-- Witness for C8 at (2,3,4). -/
theorem round_trip_default_witness :
    (initValues Algorithm.jki_map d234 natZero)[5]? = some 5 ∧
    convert Algorithm.jki_map d234 (initFile d234) natZero natZero
      (offset_jik d234 1 2 3) = offset_jki d234 1 2 3 := by
  refine ⟨?_, ?_⟩
  · exact (round_trip_default d234 (by decide) (by decide) (by decide)
      natZero natZero).1 5 (by decide)
  · exact (round_trip_default d234 (by decide) (by decide) (by decide)
      natZero natZero).2 1 2 3 (by decide) (by decide) (by decide)

/-- C4 evaluated at its failing input: the fd backend's open with
`should_create = true` on an existing path succeeds (opening the file)
because `file_handle_open_fd` never sets `O_EXCL`, so the promised
distinguishable EEXIST failure never occurs there; only the stream
backend delivers it. -/
theorem fd_open_create_existing_succeeds :
    file_handle_open_fd ⟨true, 64⟩ false true false = Except.ok ⟨true, 64⟩ ∧
    file_handle_open_stream ⟨true, 64⟩ false true false =
      Except.error EEXIST :=
  ⟨rfl, rfl⟩

/-- C5 evaluated at its failing inputs: with the fd backend, an existing
undersized output file (size 0, expected 64 bytes) is opened by the
create-open itself (no O_EXCL), so the EEXIST branch of `main` holding the
output size validation never runs and the phase succeeds with no EINVAL;
with the stream backend, an existing output file of exactly the expected
size is truncated to 0 bytes by the `fopen("wb+")` reopen and then
rejected as too small. -/
theorem output_open_validation_gap :
    output_open_phase Driver.fd ⟨true, 0⟩ 64 false = Except.ok ⟨true, 0⟩ ∧
    output_open_phase Driver.stream ⟨true, 64⟩ 64 false =
      Except.error EINVAL :=
  ⟨rfl, rfl⟩

/-- C6 evaluated at its failing input: with a backend whose every write
call fails (returns -1, errno 5), the vector_input, vector_output and
matrix initializers at (2,2,2) run to completion with no error exit —
their write results are assigned but never tested (src lines 651, 673,
698) — whereas the checked jki_map initializer exits with the backend's
errno at its first write. -/
theorem init_block_write_failures_ignored :
    initE Algorithm.vector_input d222 (fun _ => -1) (fun _ => 5) =
      Except.ok 4 ∧
    initE Algorithm.vector_output d222 (fun _ => -1) (fun _ => 5) =
      Except.ok 4 ∧
    initE Algorithm.matrix d222 (fun _ => -1) (fun _ => 5) = Except.ok 2 ∧
    initE Algorithm.jki_map d222 (fun _ => -1) (fun _ => 5) =
      Except.error 5 :=
  ⟨rfl, rfl, rfl, rfl⟩

lemma seekE_ok {d : Drv} (h : ∀ fp, 0 ≤ d.sres fp) (fp : Nat) :
    seekE d fp = Except.ok () := by
  unfold seekE
  rw [if_neg (by exact not_lt.mpr (h fp))]

lemma readE_eof {d : Drv} (h : ∀ fp, d.rres fp = 0) (fp : Nat) :
    readE d fp = Except.error EINVAL := by
  unfold readE
  rw [h fp]
  norm_num

lemma readE_err {d : Drv} (h : ∀ fp, d.rres fp < 0) (fp : Nat) :
    readE d fp = Except.error (d.rerr fp) := by
  unfold readE
  rw [if_pos (le_of_lt (h fp)), if_neg (by exact ne_of_lt (h fp))]

/-- A fold whose every step fails with the same exit code fails with it. -/
lemma foldlM_unit_error {β : Type} {c : Nat} {f : Unit → β → Except Nat Unit}
    {l : List β} (hl : l ≠ []) (hf : ∀ x ∈ l, f () x = Except.error c) :
    l.foldlM f () = Except.error c := by
  cases l with
  | nil => exact absurd rfl hl
  | cons x xs =>
    rw [List.foldlM_cons, hf x (List.mem_cons_self x xs)]
    rfl

lemma order_ijk_ne_nil {n : Dims}
    (h0 : 0 < n.n0) (h1 : 0 < n.n1) (h2 : 0 < n.n2) : order_ijk n ≠ [] :=
  List.ne_nil_of_mem ((@mem_order_ijk n (0, 0, 0)).mpr ⟨h0, h1, h2⟩)

lemma order_jki_ne_nil {n : Dims}
    (h0 : 0 < n.n0) (h1 : 0 < n.n1) (h2 : 0 < n.n2) : order_jki n ≠ [] :=
  List.ne_nil_of_mem ((@mem_order_jki n (0, 0, 0)).mpr ⟨h0, h1, h2⟩)

lemma order_jik_ne_nil {n : Dims}
    (h0 : 0 < n.n0) (h1 : 0 < n.n1) (h2 : 0 < n.n2) : order_jik n ≠ [] :=
  List.ne_nil_of_mem ((@mem_order_jik n (0, 0, 0)).mpr ⟨h0, h1, h2⟩)

lemma pairs_jk_ne_nil {n : Dims}
    (h1 : 0 < n.n1) (h2 : 0 < n.n2) : pairs_jk n ≠ [] :=
  List.ne_nil_of_mem ((@mem_pairs_jk n (0, 0)).mpr ⟨h1, h2⟩)

lemma pairs_ji_ne_nil {n : Dims}
    (h0 : 0 < n.n0) (h1 : 0 < n.n1) : pairs_ji n ≠ [] :=
  List.ne_nil_of_mem ((@mem_pairs_ji n (0, 0)).mpr ⟨h1, h0⟩)

lemma mapStep_eof {di dd : Drv} (hs : ∀ fp, 0 ≤ di.sres fp)
    (hr : ∀ fp, di.rres fp = 0) (n : Dims) (t : Nat × Nat × Nat) :
    mapStep di dd n t = Except.error EINVAL := by
  simp [mapStep, seekE_ok hs, readE_eof hr]

lemma mapStep_err {di dd : Drv} {e : Nat} (hs : ∀ fp, 0 ≤ di.sres fp)
    (hr : ∀ fp, di.rres fp < 0) (he : ∀ fp, di.rerr fp = e)
    (n : Dims) (t : Nat × Nat × Nat) :
    mapStep di dd n t = Except.error e := by
  simp [mapStep, seekE_ok hs, readE_err hr, he]

lemma viStep_eof {di dd : Drv} (hs : ∀ fp, 0 ≤ di.sres fp)
    (hr : ∀ fp, di.rres fp = 0) (n : Dims) (jk : Nat × Nat) :
    viStep di dd n jk = Except.error EINVAL := by
  simp [viStep, seekE_ok hs, readE_eof hr]

lemma viStep_err {di dd : Drv} {e : Nat} (hs : ∀ fp, 0 ≤ di.sres fp)
    (hr : ∀ fp, di.rres fp < 0) (he : ∀ fp, di.rerr fp = e)
    (n : Dims) (jk : Nat × Nat) :
    viStep di dd n jk = Except.error e := by
  simp [viStep, seekE_ok hs, readE_err hr, he]

lemma voReadLoop_eof {di : Drv} (hs : ∀ fp, 0 ≤ di.sres fp)
    (hr : ∀ fp, di.rres fp = 0) {n : Dims} (h2 : 0 < n.n2) (ji : Nat × Nat) :
    voReadLoop di n ji = Except.error EINVAL := by
  unfold voReadLoop
  refine foldlM_unit_error (List.ne_nil_of_mem (List.mem_range.mpr h2)) ?_
  intro k _
  simp [seekE_ok hs, readE_eof hr]

lemma voReadLoop_err {di : Drv} {e : Nat} (hs : ∀ fp, 0 ≤ di.sres fp)
    (hr : ∀ fp, di.rres fp < 0) (he : ∀ fp, di.rerr fp = e)
    {n : Dims} (h2 : 0 < n.n2) (ji : Nat × Nat) :
    voReadLoop di n ji = Except.error e := by
  unfold voReadLoop
  refine foldlM_unit_error (List.ne_nil_of_mem (List.mem_range.mpr h2)) ?_
  intro k _
  simp [seekE_ok hs, readE_err hr, he]

lemma voStep_eof {di dd : Drv} (hs : ∀ fp, 0 ≤ di.sres fp)
    (hr : ∀ fp, di.rres fp = 0) {n : Dims} (h2 : 0 < n.n2) (ji : Nat × Nat) :
    voStep di dd n ji = Except.error EINVAL := by
  simp [voStep, voReadLoop_eof hs hr h2]

lemma voStep_err {di dd : Drv} {e : Nat} (hs : ∀ fp, 0 ≤ di.sres fp)
    (hr : ∀ fp, di.rres fp < 0) (he : ∀ fp, di.rerr fp = e)
    {n : Dims} (h2 : 0 < n.n2) (ji : Nat × Nat) :
    voStep di dd n ji = Except.error e := by
  simp [voStep, voReadLoop_err hs hr he h2]

lemma matStep_eof {di dd : Drv} (hs : ∀ fp, 0 ≤ di.sres fp)
    (hr : ∀ fp, di.rres fp = 0) (n : Dims) (j : Nat) :
    matStep di dd n j = Except.error EINVAL := by
  simp [matStep, seekE_ok hs, readE_eof hr]

lemma matStep_err {di dd : Drv} {e : Nat} (hs : ∀ fp, 0 ≤ di.sres fp)
    (hr : ∀ fp, di.rres fp < 0) (he : ∀ fp, di.rerr fp = e)
    (n : Dims) (j : Nat) :
    matStep di dd n j = Except.error e := by
  simp [matStep, seekE_ok hs, readE_err hr, he]

/-- C9: in the conversion phase of every algorithm variant, with seeks
succeeding, a read that returns zero bytes (end-of-file before the cube is
exhausted) is fatal with the distinct invalid-argument exit code EINVAL,
while a read that returns a negative count is fatal with the backend's
errno `e` — the two failure kinds are distinguished. -/
theorem read_eof_vs_error_distinguished (alg : Algorithm) (n : Dims)
    (h0 : 0 < n.n0) (h1 : 0 < n.n1) (h2 : 0 < n.n2) (dd : Drv) (e : Nat)
    (dEof dErr : Drv)
    (hs1 : ∀ fp, 0 ≤ dEof.sres fp) (hr1 : ∀ fp, dEof.rres fp = 0)
    (hs2 : ∀ fp, 0 ≤ dErr.sres fp) (hr2 : ∀ fp, dErr.rres fp < 0)
    (he2 : ∀ fp, dErr.rerr fp = e) :
    convE alg n dEof dd = Except.error EINVAL ∧
    convE alg n dErr dd = Except.error e := by
  constructor
  · cases alg with
    | ijk_map =>
      exact foldlM_unit_error (order_ijk_ne_nil h0 h1 h2)
        (fun t _ => mapStep_eof hs1 hr1 n t)
    | jki_map =>
      exact foldlM_unit_error (order_jki_ne_nil h0 h1 h2)
        (fun t _ => mapStep_eof hs1 hr1 n t)
    | jik_map =>
      exact foldlM_unit_error (order_jik_ne_nil h0 h1 h2)
        (fun t _ => mapStep_eof hs1 hr1 n t)
    | vector_input =>
      exact foldlM_unit_error (pairs_jk_ne_nil h1 h2)
        (fun jk _ => viStep_eof hs1 hr1 n jk)
    | vector_output =>
      exact foldlM_unit_error (pairs_ji_ne_nil h0 h1)
        (fun ji _ => voStep_eof hs1 hr1 h2 ji)
    | matrix =>
      exact foldlM_unit_error
        (List.ne_nil_of_mem (List.mem_range.mpr h1))
        (fun j _ => matStep_eof hs1 hr1 n j)
  · cases alg with
    | ijk_map =>
      exact foldlM_unit_error (order_ijk_ne_nil h0 h1 h2)
        (fun t _ => mapStep_err hs2 hr2 he2 n t)
    | jki_map =>
      exact foldlM_unit_error (order_jki_ne_nil h0 h1 h2)
        (fun t _ => mapStep_err hs2 hr2 he2 n t)
    | jik_map =>
      exact foldlM_unit_error (order_jik_ne_nil h0 h1 h2)
        (fun t _ => mapStep_err hs2 hr2 he2 n t)
    | vector_input =>
      exact foldlM_unit_error (pairs_jk_ne_nil h1 h2)
        (fun jk _ => viStep_err hs2 hr2 he2 n jk)
    | vector_output =>
      exact foldlM_unit_error (pairs_ji_ne_nil h0 h1)
        (fun ji _ => voStep_err hs2 hr2 he2 h2 ji)
    | matrix =>
      exact foldlM_unit_error
        (List.ne_nil_of_mem (List.mem_range.mpr h1))
        (fun j _ => matStep_err hs2 hr2 he2 n j)

/-- Witness for C9: the jki_map conversion at (2,2,2) under the
all-end-of-file driver and under the all-failing driver with errno 5. -/
theorem read_eof_vs_error_distinguished_witness :
    convE Algorithm.jki_map d222 eofDrv okDrv = Except.error EINVAL ∧
    convE Algorithm.jki_map d222 (errDrv 5) okDrv = Except.error 5 :=
  read_eof_vs_error_distinguished Algorithm.jki_map d222 (by decide)
    (by decide) (by decide) okDrv 5 eofDrv (errDrv 5)
    (fun _ => le_refl (0 : Int)) (fun _ => rfl)
    (fun _ => le_refl (0 : Int))
    (fun _ => show (-1 : Int) < 0 by norm_num) (fun _ => rfl)

/-- C10: for positive dimensions, every output-file seek of every
conversion algorithm lands at a byte offset `8*o` for an element index
`o < n0*n1*n2`, the write of length L issued there satisfies
`8*o + L ≤ 8*n0*n1*n2` (no conversion write reaches past the end of the
expected data region), and the matrix transpose's scratch indices
`i*n2+k` and `k*n0+i` both lie in `[0, n0*n2)`. -/
theorem output_ops_in_bounds (alg : Algorithm) (n : Dims)
    (h0 : 0 < n.n0) (h1 : 0 < n.n1) (h2 : 0 < n.n2) :
    (∀ op ∈ outputOps alg n, ∃ o, op.1 = 8 * o ∧ o < n.N ∧
      8 * o + op.2 ≤ 8 * n.N) ∧
    (∀ i k, i < n.n0 → k < n.n2 →
      i * n.n2 + k < n.n0 * n.n2 ∧ k * n.n0 + i < n.n0 * n.n2) := by
  have hN : n.N = n.n1 * (n.n0 * n.n2) := by unfold Dims.N; ring
  constructor
  · intro op hop
    cases alg with
    | ijk_map =>
      obtain ⟨t, ht, rfl⟩ := List.mem_map.mp hop
      obtain ⟨hi, hj, hk⟩ := mem_order_ijk.mp ht
      have hlt := offset_jik_lt hi hj hk
      exact ⟨offset_jik n t.1 t.2.1 t.2.2, rfl, hlt, by omega⟩
    | jki_map =>
      obtain ⟨t, ht, rfl⟩ := List.mem_map.mp hop
      obtain ⟨hi, hj, hk⟩ := mem_order_jki.mp ht
      have hlt := offset_jik_lt hi hj hk
      exact ⟨offset_jik n t.1 t.2.1 t.2.2, rfl, hlt, by omega⟩
    | jik_map =>
      obtain ⟨t, ht, rfl⟩ := List.mem_map.mp hop
      obtain ⟨hi, hj, hk⟩ := mem_order_jik.mp ht
      have hlt := offset_jik_lt hi hj hk
      exact ⟨offset_jik n t.1 t.2.1 t.2.2, rfl, hlt, by omega⟩
    | vector_input =>
      obtain ⟨jk, hjk, hop'⟩ := List.mem_flatMap.mp hop
      obtain ⟨i, hi, rfl⟩ := List.mem_map.mp hop'
      obtain ⟨hj, hk⟩ := mem_pairs_jk.mp hjk
      have hi' := List.mem_range.mp hi
      have hlt := offset_jik_lt hi' hj hk
      exact ⟨offset_jik n i jk.1 jk.2, rfl, hlt, by omega⟩
    | vector_output =>
      obtain ⟨ji, hji, rfl⟩ := List.mem_map.mp hop
      obtain ⟨hj, hi⟩ := mem_pairs_ji.mp hji
      refine ⟨offset_jik n ji.2 ji.1 0, rfl, ?_, ?_⟩
      · exact offset_jik_lt hi hj h2
      · have ho : offset_jik n ji.2 ji.1 0 =
            ji.1 * (n.n0 * n.n2) + ji.2 * n.n2 := by
          rw [offset_jik_eq]; ring
        have hA : (ji.2 + 1) * n.n2 ≤ n.n0 * n.n2 :=
          Nat.mul_le_mul_right n.n2 hi
        have hB : (ji.1 + 1) * (n.n0 * n.n2) ≤ n.n1 * (n.n0 * n.n2) :=
          Nat.mul_le_mul_right (n.n0 * n.n2) hj
        have hexp1 : (ji.2 + 1) * n.n2 = ji.2 * n.n2 + n.n2 := by ring
        have hexp2 : (ji.1 + 1) * (n.n0 * n.n2) =
            ji.1 * (n.n0 * n.n2) + n.n0 * n.n2 := by ring
        rw [hexp1] at hA
        rw [hexp2] at hB
        omega
    | matrix =>
      obtain ⟨j, hj, rfl⟩ := List.mem_map.mp hop
      have hj' := List.mem_range.mp hj
      have ho : offset_jik n 0 j 0 = j * (n.n0 * n.n2) := by
        rw [offset_jik_eq]; ring
      have hB : (j + 1) * (n.n0 * n.n2) ≤ n.n1 * (n.n0 * n.n2) :=
        Nat.mul_le_mul_right (n.n0 * n.n2) hj'
      have hexp : (j + 1) * (n.n0 * n.n2) =
          j * (n.n0 * n.n2) + n.n0 * n.n2 := by ring
      rw [hexp] at hB
      have hP : 0 < n.n0 * n.n2 := Nat.mul_pos h0 h2
      refine ⟨offset_jik n 0 j 0, rfl, by omega, by omega⟩
  · intro i k hi hk
    constructor
    · exact digit_lt hi hk
    · rw [Nat.mul_comm n.n0 n.n2]
      exact digit_lt hk hi

/-- Witness for C10: the first matrix output operation at (2,2,2) and the
scratch bounds at (1,1). -/
theorem output_ops_in_bounds_witness :
    (∃ o, (0 : Nat) = 8 * o ∧ o < d222.N ∧ 8 * o + 32 ≤ 8 * d222.N) ∧
    (1 * d222.n2 + 1 < d222.n0 * d222.n2 ∧
      1 * d222.n0 + 1 < d222.n0 * d222.n2) := by
  refine ⟨?_, ?_⟩
  · exact (output_ops_in_bounds Algorithm.matrix d222 (by decide) (by decide)
      (by decide)).1 (0, 32) (by decide)
  · exact (output_ops_in_bounds Algorithm.matrix d222 (by decide) (by decide)
      (by decide)).2 1 1 (by decide) (by decide)

end JkiToJik
